import Mathlib

/-!
Verification of the trace/commitment core of the nexus-zkvm prover
(`prover/src/machine2/trace/mod.rs` and `prover/src/test_utils.rs`),
as a shallow embedding in Lean.

The base field is stwo's M31 (integers mod `2^31 - 1`), modelled as `Fin P`.
Trace columns are lists of field elements; the `Traces` struct mirrors the
Rust struct with its `cols` and `log_size` fields.  Rust `assert!` failures
and panicking indexing are modelled by returning `none` from `Option`-valued
operations.
-/

/-- The M31 modulus `2^31 - 1`, the prime of stwo's `BaseField`. -/
def M31P : Nat := 2147483647

instance : NeZero M31P := ⟨by decide⟩

/-- A field element of stwo's `BaseField` (M31). -/
abbrev BaseField := Fin M31P

/-- Conversion of a machine integer into the field, `BaseField::from`,
reducing modulo the prime. -/
def BaseField.ofNat (x : Nat) : BaseField := ⟨x % M31P, Nat.mod_lt _ (by decide)⟩

/-- A byte, the element type of the slices fed to `fill_columns`. -/
abbrev Byte := Fin 256

/-- Modelled from the spec: `LOG_N_LANES`, the vectorization floor of the
SIMD backend (16 = 2^4 lanes), an external stwo constant not under `src/`. -/
def LOG_N_LANES : Nat := 4

/-- Modelled from the spec: `Column` (from `machine2/column.rs`, whose source
is not under `src/`): a named slice descriptor holding an `(offset, width)`
pair into the trace's flat buffer, `size` being the width. -/
structure Column where
  offset : Nat
  size : Nat
deriving DecidableEq, Repr

/-- Modelled from the spec: the preprocessed schema (`PreprocessedColumn` in
`machine2/column.rs`, not under `src/`) declares the columns "IsFirst" and
"Range256", laid out at consecutive offsets. -/
def PreprocessedColumn.IsFirstOffset : Nat := 0

/-- Modelled from the spec: offset of the "Range256" preprocessed column. -/
def PreprocessedColumn.Range256Offset : Nat := 1

/-- Modelled from the spec: total width of the preprocessed schema. -/
def PreprocessedColumn.COLUMNS_NUM : Nat := 2

/-- The trace store: `TOTAL_WIDTH` columns of `2^log_size` field elements.
Mirrors `struct Traces { cols: Vec<Vec<BaseField>>, log_size: u32 }`. -/
structure Traces where
  cols : List (List BaseField)
  log_size : Nat
deriving DecidableEq

/-- Reads the cell of column `j` at row `r` (0 when out of bounds; all
verified accesses are guarded by bounds). -/
def getCell (cols : List (List BaseField)) (j r : Nat) : BaseField :=
  (cols.getD j []).getD r 0

/-- Writes `v` into the cell of column `j` at row `r`, the effect of the Rust
assignment `cols[j][r] = v` (bounds are checked by the callers). -/
def writeCell (cols : List (List BaseField)) (j r : Nat) (v : BaseField) :
    List (List BaseField) :=
  cols.set j ((cols.getD j []).set r v)

/-- `Traces::new(log_size)`: `Column::COLUMNS_NUM` zeroed columns, each
`2^log_size` long.  The Rust `assert!(log_size >= LOG_N_LANES)` is modelled
by `none`.  `ncols` stands for `Column::COLUMNS_NUM`, the main schema's
total width (declared in `machine2/column.rs`, not under `src/`). -/
def Traces.new (ncols log_size : Nat) : Option Traces :=
  if LOG_N_LANES ≤ log_size then
    some ⟨List.replicate ncols (List.replicate (2 ^ log_size) (0 : BaseField)), log_size⟩
  else none

/-- Writes rows `0..n-1` of column `off` with the field elements `0..n-1`,
the loop `for row_idx in 0..256` of `new_preprocessed_trace`. -/
def fillRangeCol (cols : List (List BaseField)) (off : Nat) : Nat → List (List BaseField)
  | 0 => cols
  | n + 1 => writeCell (fillRangeCol cols off n) off n (BaseField.ofNat n)

/-- `Traces::new_preprocessed_trace(log_size)`: zeroed preprocessed columns
with row 0 of "IsFirst" set to one and rows `0..255` of "Range256" set to
`0..255`.  Both Rust asserts (`log_size >= LOG_N_LANES`, `log_size >= 8`)
are modelled by `none`.  The schema (`ncols`, the two offsets) is passed
explicitly since `machine2/column.rs` is not under `src/`. -/
def Traces.new_preprocessed_trace (ncols isFirstOff range256Off log_size : Nat) :
    Option Traces :=
  if LOG_N_LANES ≤ log_size ∧ 8 ≤ log_size then
    let cols0 := List.replicate ncols (List.replicate (2 ^ log_size) (0 : BaseField))
    let cols1 := writeCell cols0 isFirstOff 0 1
    some ⟨fillRangeCol cols1 range256Off 256, log_size⟩
  else none

/-- `Traces::column::<N>(row, col)`: a copy of the `N` cells at `row` in
columns `offset .. offset+N`.  The Rust `assert_eq!(col.size(), N)` and the
panicking slice/row indexing are modelled by `none`. -/
def Traces.column (t : Traces) (N row : Nat) (col : Column) : Option (List BaseField) :=
  if col.size = N then
    if col.offset + N ≤ t.cols.length ∧
        ∀ i, i < N → row < (t.cols.getD (col.offset + i) []).length then
      some ((List.range N).map (fun i => getCell t.cols (col.offset + i) row))
    else none
  else none

/-- `Traces::column_mut::<N>(row, col)`: mutable references to the same `N`
cells; modelled by the list of `(column index, row)` addresses the references
point at.  Size mismatch and out-of-bounds indexing yield `none`. -/
def Traces.column_mut (t : Traces) (N row : Nat) (col : Column) :
    Option (List (Nat × Nat)) :=
  if col.size = N then
    if col.offset + N ≤ t.cols.length ∧
        ∀ i, i < N → row < (t.cols.getD (col.offset + i) []).length then
      some ((List.range N).map (fun i => (col.offset + i, row)))
    else none
  else none

/-- The write loop of `fill_columns` / `fill_effective_columns`: writes each
byte of `value` (zero instead when `selector` is true), cast to a field
element, into consecutive columns starting at `off`, all at `row`. -/
def fillLoop (cols : List (List BaseField)) (row : Nat) (value : List Byte)
    (off : Nat) (selector : Bool) : List (List BaseField) :=
  match value with
  | [] => cols
  | b :: rest =>
      fillLoop (writeCell cols off row (if selector then 0 else BaseField.ofNat b.val))
        row rest (off + 1) selector

/-- `Traces::fill_columns(row, value, col)`: writes each byte of `value` as a
field element into consecutive column slots at `col.offset`, at `row`.  The
Rust `assert_eq!(col.size(), n)` and panicking indexing are modelled by
`none`. -/
def Traces.fill_columns (t : Traces) (row : Nat) (value : List Byte) (col : Column) :
    Option Traces :=
  if col.size = value.length then
    if col.offset + value.length ≤ t.cols.length ∧
        ∀ i, i < value.length → row < (t.cols.getD (col.offset + i) []).length then
      some ⟨fillLoop t.cols row value col.offset false, t.log_size⟩
    else none
  else none

/-- `Traces::fill_effective_columns(row, value, col, selector)`: as
`fill_columns`, except every slot receives field-zero when `selector` is
true. -/
def Traces.fill_effective_columns (t : Traces) (row : Nat) (value : List Byte)
    (col : Column) (selector : Bool) : Option Traces :=
  if col.size = value.length then
    if col.offset + value.length ≤ t.cols.length ∧
        ∀ i, i < value.length → row < (t.cols.getD (col.offset + i) []).length then
      some ⟨fillLoop t.cols row value col.offset selector, t.log_size⟩
    else none
  else none

/-- Modelled from the spec: `bit_reverse`'s index permutation (from
`machine2/trace/utils.rs`, not under `src/`): the `k`-bit reversal of `i`. -/
def reverseBits : Nat → Nat → Nat
  | 0, _ => 0
  | k + 1, i => i % 2 * 2 ^ k + reverseBits k (i / 2)

/-- Modelled from the spec: `coset_order_to_circle_domain_order` (from
`machine2/trace/utils.rs`, not under `src/`): the first half of the output
takes the even-indexed inputs in increasing order, the second half the
odd-indexed inputs in decreasing order — the circle domain's canonical
indexing of a coset-ordered column. -/
def coset_order_to_circle_domain_order (v : List BaseField) : List BaseField :=
  (List.range (v.length / 2)).map (fun i => v.getD (2 * i) 0) ++
    (List.range (v.length / 2)).map (fun i => v.getD (v.length - 1 - 2 * i) 0)

/-- Modelled from the spec: `bit_reverse` (from `machine2/trace/utils.rs`,
not under `src/`): permutes a column of `2^k` elements by `k`-bit reversal
of row indices. -/
def bit_reverse (k : Nat) (v : List BaseField) : List BaseField :=
  (List.range v.length).map (fun i => v.getD (reverseBits k i) 0)

/-- The domain-reordering transform applied to each column by
`get_base_column` and `circle_evaluation`: coset order to circle-domain
order, then bit reversal. -/
def domainTransform (k : Nat) (v : List BaseField) : List BaseField :=
  bit_reverse k (coset_order_to_circle_domain_order v)

/-- The index map of `coset_order_to_circle_domain_order` on a column of
length `n`: output position `j` reads input position `cosetIdx n j`. -/
def cosetIdx (n j : Nat) : Nat :=
  if j < n / 2 then 2 * j else 2 * n - 1 - 2 * j

/-- The row-index permutation realised by `domainTransform` on columns of
length `2^k`: output position `i` reads input position `domainPerm k i`. -/
def domainPerm (k i : Nat) : Nat :=
  cosetIdx (2 ^ k) (reverseBits k i)

/-- `Traces::get_base_column::<N>(col)`: the `N` columns at
`offset .. offset+N`, each reordered by the domain transform.  The Rust
`assert_eq!(col.size(), N)` and the `try_into().expect(..)` on a short
slice are modelled by `none`. -/
def Traces.get_base_column (t : Traces) (N : Nat) (col : Column) :
    Option (List (List BaseField)) :=
  if col.size = N then
    if col.offset + N ≤ t.cols.length then
      some (((t.cols.drop col.offset).take N).map (domainTransform t.log_size))
    else none
  else none

/-- `Traces::circle_evaluation()`: every column reordered by the domain
transform into a circle-domain evaluation (the `CircleEvaluation` wrapper
over the external domain object carries no further data we model). -/
def Traces.circle_evaluation (t : Traces) : List (List BaseField) :=
  t.cols.map (domainTransform t.log_size)

/-- A committed tree of column evaluations, as absorbed by one
`tree_builder.commit` call. -/
abbrev EvalTree := List (List BaseField)

/-- The Fiat-Shamir channel, modelled by the ordered list of evaluation
trees absorbed into it so far (`Blake2sChannel` internals are external). -/
abbrev Channel := List EvalTree

/-- Absorbing one committed tree into the channel
(`tree_builder.commit(&mut prover_channel)`). -/
def channelCommit (ch : Channel) (t : EvalTree) : Channel := ch ++ [t]

/-- One observable step of the commit pipeline: a commitment absorbed into
the transcript, or a challenge drawn from it. -/
inductive Step (LE : Type) where
  | commit : EvalTree → Step LE
  | draw : LE → Step LE
deriving DecidableEq

/-- The pluggable chip contract (`trait MachineChip`): derive interaction
columns from the traces and a challenge, and register/check constraints.
`LE` is the `LookupElements` type, drawn from the channel; the constraint
check is modelled by its boolean outcome on the combined trace tree. -/
structure MachineChip (LE : Type) where
  fill_interaction_trace : Traces → Traces → LE → EvalTree
  add_constraints : List EvalTree → LE → Bool

/-- The record returned by `commit_traces` (`struct CommittedTraces`),
extended with the ordered log of pipeline steps performed. -/
structure CommittedTraces (LE : Type) where
  steps : List (Step LE)
  lookup_elements : LE
  preprocessed_trace : Traces
  interaction_trace : EvalTree
deriving DecidableEq

/-- `commit_traces`: commit the preprocessed trace, commit the main trace,
draw `LookupElements` from the channel, build the interaction trace via the
chip, commit it.  `drawFn` stands for `LookupElements::draw`, a
deterministic function of the transcript state (external Blake2s
internals).  A failing `new_preprocessed_trace` assert is `none`. -/
def commit_traces (LE : Type) (C : MachineChip LE) (drawFn : Channel → LE)
    (traces : Traces) (custom_preprocessed : Option Traces) :
    Option (CommittedTraces LE) :=
  let pre? : Option Traces :=
    match custom_preprocessed with
    | some p => some p
    | none =>
        Traces.new_preprocessed_trace PreprocessedColumn.COLUMNS_NUM
          PreprocessedColumn.IsFirstOffset PreprocessedColumn.Range256Offset
          traces.log_size
  pre?.map
    (fun preprocessed =>
      let ch0 : Channel := []
      let ch1 := channelCommit ch0 preprocessed.circle_evaluation
      let ch2 := channelCommit ch1 traces.circle_evaluation
      let lookup_elements := drawFn ch2
      let interaction := C.fill_interaction_trace traces preprocessed lookup_elements
      { steps := [Step.commit preprocessed.circle_evaluation,
                  Step.commit traces.circle_evaluation,
                  Step.draw lookup_elements,
                  Step.commit interaction],
        lookup_elements := lookup_elements,
        preprocessed_trace := preprocessed,
        interaction_trace := interaction })

/-- `assert_chip`: run `commit_traces`, then check the chip's constraints on
the combined (preprocessed, main, interaction) trace tree with the drawn
`lookup_elements` (interpolation and `assert_constraints` being external,
the check is the chip's boolean on the evaluation tree). -/
def assert_chip (LE : Type) (C : MachineChip LE) (drawFn : Channel → LE)
    (traces : Traces) (custom_preprocessed : Option Traces) : Option Bool :=
  (commit_traces LE C drawFn traces custom_preprocessed).map
    (fun ct =>
      C.add_constraints
        [ct.preprocessed_trace.circle_evaluation,
         traces.circle_evaluation,
         ct.interaction_trace]
        ct.lookup_elements)

/-- `Traces::assert_as_original_trace(add_constraints_calls)`: combine the
main trace with the generated preprocessed trace and an empty interaction
trace, and run the supplied constraint check on the combination (`check`
models the callback applied through `assert_constraints`; interpolation is
external). -/
def Traces.assert_as_original_trace (t : Traces)
    (check : List EvalTree → Bool) : Option Bool :=
  (Traces.new_preprocessed_trace PreprocessedColumn.COLUMNS_NUM
      PreprocessedColumn.IsFirstOffset PreprocessedColumn.Range256Offset
      t.log_size).map
    (fun preprocessed =>
      check [preprocessed.circle_evaluation, t.circle_evaluation, []])

theorem getD_set_self {α : Type} {l : List α} {n : Nat} {a d : α} (h : n < l.length) :
    (l.set n a).getD n d = a := by
  rw [List.getD_eq_getElem?_getD, List.getElem?_set_self h]
  rfl

theorem getD_set_ne {α : Type} {l : List α} {m n : Nat} {a d : α} (h : m ≠ n) :
    (l.set m a).getD n d = l.getD n d := by
  rw [List.getD_eq_getElem?_getD, List.getElem?_set_ne h, List.getD_eq_getElem?_getD]

theorem getD_set' {α : Type} {l : List α} {m n : Nat} {a d : α} :
    (l.set m a).getD n d =
      if m = n ∧ m < l.length then a else l.getD n d := by
  by_cases hmn : m = n
  · subst hmn
    by_cases hlt : m < l.length
    · simp [getD_set_self hlt, hlt]
    · simp [List.set_eq_of_length_le (le_of_not_lt hlt), hlt]
  · simp [getD_set_ne hmn, hmn]

theorem writeCell_length (cols : List (List BaseField)) (j r : Nat) (v : BaseField) :
    (writeCell cols j r v).length = cols.length := by
  simp [writeCell]

theorem writeCell_col_length (cols : List (List BaseField)) (j r : Nat) (v : BaseField)
    (j' : Nat) : ((writeCell cols j r v).getD j' []).length = (cols.getD j' []).length := by
  unfold writeCell
  rw [getD_set']
  by_cases hj : j = j' ∧ j < cols.length
  · rw [if_pos hj, List.length_set]
    obtain ⟨rfl, _⟩ := hj
    rfl
  · rw [if_neg hj]

theorem getCell_writeCell_self {cols : List (List BaseField)} {j r : Nat} {v : BaseField}
    (hj : j < cols.length) (hr : r < (cols.getD j []).length) :
    getCell (writeCell cols j r v) j r = v := by
  unfold getCell writeCell
  rw [getD_set_self hj, getD_set_self hr]

theorem getCell_writeCell_ne {cols : List (List BaseField)} {j r j' r' : Nat}
    {v : BaseField} (h : j ≠ j' ∨ r ≠ r') :
    getCell (writeCell cols j r v) j' r' = getCell cols j' r' := by
  unfold getCell writeCell
  rcases h with h | h
  · rw [getD_set_ne h]
  · rw [getD_set']
    by_cases hj : j = j' ∧ j < cols.length
    · obtain ⟨rfl, _⟩ := hj
      simp_all [getD_set_ne h]
    · simp [hj]

theorem fillLoop_length (value : List Byte) :
    ∀ (cols : List (List BaseField)) (row off : Nat) (sel : Bool),
      (fillLoop cols row value off sel).length = cols.length := by
  induction value with
  | nil => intro cols row off sel; rfl
  | cons b rest ih =>
      intro cols row off sel
      rw [fillLoop, ih, writeCell_length]

theorem fillLoop_col_length (value : List Byte) :
    ∀ (cols : List (List BaseField)) (row off : Nat) (sel : Bool) (j : Nat),
      ((fillLoop cols row value off sel).getD j []).length = (cols.getD j []).length := by
  induction value with
  | nil => intro cols row off sel j; rfl
  | cons b rest ih =>
      intro cols row off sel j
      rw [fillLoop, ih, writeCell_col_length]

theorem getCell_fillLoop_frame (value : List Byte) :
    ∀ (cols : List (List BaseField)) (row off : Nat) (sel : Bool) (j r : Nat),
      (r ≠ row ∨ j < off ∨ off + value.length ≤ j) →
      getCell (fillLoop cols row value off sel) j r = getCell cols j r := by
  induction value with
  | nil => intro cols row off sel j r _; rfl
  | cons b rest ih =>
      intro cols row off sel j r h
      rw [fillLoop, ih _ row (off + 1) sel j r (by
        rcases h with h | h | h
        · exact Or.inl h
        · exact Or.inr (Or.inl (by omega))
        · exact Or.inr (Or.inr (by simp at h ⊢; omega)))]
      exact getCell_writeCell_ne (by
        rcases h with h | h | h
        · exact Or.inr (fun he => h he.symm)
        · exact Or.inl (by omega)
        · exact Or.inl (by simp at h; omega))

theorem getCell_fillLoop_get (value : List Byte) :
    ∀ (cols : List (List BaseField)) (row off : Nat) (sel : Bool) (i : Nat)
      (hi : i < value.length),
      off + i < cols.length → row < (cols.getD (off + i) []).length →
      getCell (fillLoop cols row value off sel) (off + i) row =
        if sel then 0 else BaseField.ofNat (value.get ⟨i, hi⟩).val := by
  induction value with
  | nil => intro cols row off sel i hi; exact absurd hi (by simp)
  | cons b rest ih =>
      intro cols row off sel i hi hcol hrow
      rw [fillLoop]
      match i with
      | 0 =>
          rw [getCell_fillLoop_frame rest _ row (off + 1) sel (off + 0) row
            (Or.inr (Or.inl (by omega)))]
          have hcol0 : off < cols.length := by omega
          have hrow0 : row < (cols.getD off []).length := by simpa using hrow
          simpa using getCell_writeCell_self hcol0 hrow0
      | i + 1 =>
          have heq : off + (i + 1) = (off + 1) + i := by omega
          rw [heq]
          have hi' : i < rest.length := by simpa using hi
          have hcol' : (off + 1) + i < (writeCell cols off row
              (if sel then 0 else BaseField.ofNat b.val)).length := by
            rw [writeCell_length]; omega
          have hrow' : row < ((writeCell cols off row
              (if sel then 0 else BaseField.ofNat b.val)).getD ((off + 1) + i) []).length := by
            rw [writeCell_col_length]
            rw [← heq]
            exact hrow
          rw [ih _ row (off + 1) sel i hi' hcol' hrow']
          rfl

theorem fillRangeCol_length (cols : List (List BaseField)) (off : Nat) :
    ∀ n, (fillRangeCol cols off n).length = cols.length := by
  intro n
  induction n with
  | zero => rfl
  | succ n ih => rw [fillRangeCol, writeCell_length, ih]

theorem fillRangeCol_col_length (cols : List (List BaseField)) (off : Nat) (j : Nat) :
    ∀ n, ((fillRangeCol cols off n).getD j []).length = (cols.getD j []).length := by
  intro n
  induction n with
  | zero => rfl
  | succ n ih => rw [fillRangeCol, writeCell_col_length, ih]

theorem getCell_fillRangeCol_frame (cols : List (List BaseField)) (off : Nat) (j r : Nat) :
    ∀ n, (j ≠ off ∨ n ≤ r) →
      getCell (fillRangeCol cols off n) j r = getCell cols j r := by
  intro n
  induction n with
  | zero => intro _; rfl
  | succ n ih =>
      intro h
      rw [fillRangeCol, getCell_writeCell_ne (by
        rcases h with h | h
        · exact Or.inl (fun he => h he.symm)
        · exact Or.inr (by omega))]
      exact ih (by rcases h with h | h; exact Or.inl h; exact Or.inr (by omega))

theorem getCell_fillRangeCol_self (cols : List (List BaseField)) (off : Nat) (r : Nat)
    (hcol : off < cols.length) (hrow : r < (cols.getD off []).length) :
    ∀ n, r < n → getCell (fillRangeCol cols off n) off r = BaseField.ofNat r := by
  intro n
  induction n with
  | zero => intro h; exact absurd h (by omega)
  | succ n ih =>
      intro h
      rw [fillRangeCol]
      by_cases hr : r = n
      · subst hr
        exact getCell_writeCell_self (by rw [fillRangeCol_length]; exact hcol)
          (by rw [fillRangeCol_col_length]; exact hrow)
      · rw [getCell_writeCell_ne (Or.inr (fun he => hr he.symm))]
        exact ih (by omega)

theorem getD_replicate {α : Type} {n j : Nat} {a d : α} :
    (List.replicate n a).getD j d = if j < n then a else d := by
  rw [List.getD_eq_getElem?_getD, List.getElem?_replicate]
  by_cases h : j < n
  · rw [if_pos h, if_pos h, Option.getD_some]
  · rw [if_neg h, if_neg h, Option.getD_none]

theorem getCell_replicate_zero (n m j r : Nat) :
    getCell (List.replicate n (List.replicate m (0 : BaseField))) j r = 0 := by
  unfold getCell
  rw [getD_replicate]
  by_cases hj : j < n
  · rw [if_pos hj, getD_replicate]
    by_cases hr : r < m
    · rw [if_pos hr]
    · rw [if_neg hr]
  · rw [if_neg hj]
    rfl

theorem replicate_col_length (n m j : Nat) (hj : j < n) :
    ((List.replicate n (List.replicate m (0 : BaseField))).getD j []).length = m := by
  rw [getD_replicate, if_pos hj, List.length_replicate]

theorem cols_mk (c : List (List BaseField)) (l : Nat) : (Traces.mk c l).cols = c := rfl

/-- Claim C4: for every `log_size` at or above the vectorization floor
`LOG_N_LANES`, `Traces::new(log_size)` yields exactly the schema's total
number of columns, each of length `2^log_size`, with every entry equal to
the field-zero element. -/
theorem new_yields_zeroed_columns (ncols log_size : Nat) (h : LOG_N_LANES ≤ log_size) :
    ∃ t : Traces, Traces.new ncols log_size = some t ∧
      t.log_size = log_size ∧
      t.cols.length = ncols ∧
      (∀ c ∈ t.cols, c.length = 2 ^ log_size) ∧
      (∀ c ∈ t.cols, ∀ x ∈ c, x = 0) := by
  refine ⟨⟨List.replicate ncols (List.replicate (2 ^ log_size) (0 : BaseField)), log_size⟩,
    ?_, rfl, by simp, ?_, ?_⟩
  · rw [Traces.new, if_pos h]
  · intro c hc
    rw [List.eq_of_mem_replicate hc, List.length_replicate]
  · intro c hc x hx
    rw [List.eq_of_mem_replicate hc] at hx
    exact List.eq_of_mem_replicate hx

theorem new_yields_zeroed_columns_witness :
    ∃ t : Traces, Traces.new 3 4 = some t ∧
      t.log_size = 4 ∧
      t.cols.length = 3 ∧
      (∀ c ∈ t.cols, c.length = 2 ^ 4) ∧
      (∀ c ∈ t.cols, ∀ x ∈ c, x = 0) :=
  new_yields_zeroed_columns 3 4 (by decide)

set_option maxRecDepth 4000 in
/-- Claim C3: for every `log_size ≥ 8` (which is above the vectorization
floor), `new_preprocessed_trace(log_size)` produces a trace whose "IsFirst"
column is one at row 0 and zero elsewhere, whose "Range256" column holds
the field elements `0..255` at rows `0..255` in increasing order and zero
from row 256 on, and whose every other preprocessed column is entirely
zero. -/
theorem new_preprocessed_trace_content (ncols isFirstOff range256Off log_size : Nat)
    (h8 : 8 ≤ log_size) (hIf : isFirstOff < ncols) (hRg : range256Off < ncols)
    (hne : isFirstOff ≠ range256Off) :
    ∃ t : Traces,
      Traces.new_preprocessed_trace ncols isFirstOff range256Off log_size = some t ∧
      getCell t.cols isFirstOff 0 = 1 ∧
      (∀ r, 0 < r → r < 2 ^ log_size → getCell t.cols isFirstOff r = 0) ∧
      (∀ r, r < 256 → getCell t.cols range256Off r = BaseField.ofNat r) ∧
      (∀ r, 256 ≤ r → r < 2 ^ log_size → getCell t.cols range256Off r = 0) ∧
      (∀ j, j < ncols → j ≠ isFirstOff → j ≠ range256Off →
        ∀ r, r < 2 ^ log_size → getCell t.cols j r = 0) := by
  have hlanes : LOG_N_LANES ≤ log_size := by unfold LOG_N_LANES; omega
  have hpow : (256 : Nat) ≤ 2 ^ log_size := by
    calc (256 : Nat) = 2 ^ 8 := by norm_num
    _ ≤ 2 ^ log_size := Nat.pow_le_pow_right (by norm_num) h8
  set cols1 : List (List BaseField) :=
    writeCell (List.replicate ncols (List.replicate (2 ^ log_size) (0 : BaseField)))
      isFirstOff 0 1 with hc1
  have key : Traces.new_preprocessed_trace ncols isFirstOff range256Off log_size =
      some ⟨fillRangeCol cols1 range256Off 256, log_size⟩ := by
    rw [Traces.new_preprocessed_trace, if_pos ⟨hlanes, h8⟩]
  refine ⟨⟨fillRangeCol cols1 range256Off 256, log_size⟩, key, ?_, ?_, ?_, ?_, ?_⟩ <;>
    simp only [cols_mk]
  · rw [getCell_fillRangeCol_frame _ _ _ _ _ (Or.inl hne), hc1]
    exact getCell_writeCell_self (by simpa using hIf)
      (by rw [replicate_col_length _ _ _ hIf]; omega)
  · intro r hr _
    rw [getCell_fillRangeCol_frame _ _ _ _ _ (Or.inl hne), hc1,
      getCell_writeCell_ne (Or.inr (by omega)), getCell_replicate_zero]
  · intro r hr
    exact getCell_fillRangeCol_self cols1 range256Off r
      (by rw [hc1, writeCell_length, List.length_replicate]; exact hRg)
      (by rw [hc1, writeCell_col_length, replicate_col_length _ _ _ hRg]; omega)
      256 hr
  · intro r hr _
    rw [getCell_fillRangeCol_frame _ _ _ _ _ (Or.inr hr), hc1,
      getCell_writeCell_ne (Or.inl hne), getCell_replicate_zero]
  · intro j _ hjIf hjRg r _
    rw [getCell_fillRangeCol_frame _ _ _ _ _ (Or.inl (fun he => hjRg he)), hc1,
      getCell_writeCell_ne (Or.inl (fun he => hjIf he.symm)), getCell_replicate_zero]

theorem new_preprocessed_trace_content_witness :
    ∃ t : Traces,
      Traces.new_preprocessed_trace 3 0 1 8 = some t ∧
      getCell t.cols 0 0 = 1 ∧
      (∀ r, 0 < r → r < 2 ^ 8 → getCell t.cols 0 r = 0) ∧
      (∀ r, r < 256 → getCell t.cols 1 r = BaseField.ofNat r) ∧
      (∀ r, 256 ≤ r → r < 2 ^ 8 → getCell t.cols 1 r = 0) ∧
      (∀ j, j < 3 → j ≠ 0 → j ≠ 1 → ∀ r, r < 2 ^ 8 → getCell t.cols j r = 0) :=
  new_preprocessed_trace_content 3 0 1 8 (by decide) (by decide) (by decide) (by decide)

theorem log_size_mk (c : List (List BaseField)) (l : Nat) : (Traces.mk c l).log_size = l := rfl

/-- Claim C5: for every row in range, every column, and every byte sequence
`v` whose length equals the column's declared width, `fill_columns(row, v,
col)` followed by `column(row, col)` returns exactly `v` converted
element-wise to field elements. -/
theorem fill_columns_column_roundtrip (t : Traces) (row : Nat) (value : List Byte)
    (col : Column)
    (hsz : col.size = value.length)
    (hoff : col.offset + value.length ≤ t.cols.length)
    (hrow : ∀ i, i < value.length → row < (t.cols.getD (col.offset + i) []).length) :
    ∃ t2 : Traces, t.fill_columns row value col = some t2 ∧
      t2.column value.length row col =
        some (value.map (fun b => BaseField.ofNat b.val)) := by
  have key : t.fill_columns row value col =
      some ⟨fillLoop t.cols row value col.offset false, t.log_size⟩ := by
    rw [Traces.fill_columns, if_pos hsz, if_pos ⟨hoff, hrow⟩]
  have hlen : (fillLoop t.cols row value col.offset false).length = t.cols.length :=
    fillLoop_length value t.cols row col.offset false
  have hcl : ∀ j, ((fillLoop t.cols row value col.offset false).getD j []).length
      = (t.cols.getD j []).length := fillLoop_col_length value t.cols row col.offset false
  refine ⟨_, key, ?_⟩
  rw [Traces.column]
  simp only [cols_mk]
  rw [if_pos hsz, if_pos ⟨by rw [hlen]; exact hoff,
    fun i hi => by rw [hcl]; exact hrow i hi⟩]
  congr 1
  apply List.ext_getElem
  · simp
  · intro i h1 h2
    simp only [List.getElem_map, List.getElem_range]
    have hi : i < value.length := by simpa using h2
    rw [getCell_fillLoop_get value t.cols row col.offset false i hi (by omega)
      (hrow i hi)]
    simp [List.get_eq_getElem]

theorem fill_columns_column_roundtrip_witness :
    ∃ t2 : Traces,
      Traces.fill_columns ⟨[[0, 0], [0, 0]], 1⟩ 1 [5, 7] ⟨0, 2⟩ = some t2 ∧
      t2.column 2 1 ⟨0, 2⟩ =
        some ([(5 : Byte), 7].map (fun b => BaseField.ofNat b.val)) :=
  fill_columns_column_roundtrip ⟨[[0, 0], [0, 0]], 1⟩ 1 [5, 7] ⟨0, 2⟩
    (by decide) (by decide) (by decide)

/-- Claim C6: for every row, column, and byte sequence `v` of the column's
declared width, `fill_effective_columns(row, v, col, true)` writes
field-zero into every addressed slot regardless of the contents of `v`,
and `fill_effective_columns(row, v, col, false)` leaves the trace exactly
as `fill_columns(row, v, col)` does. -/
theorem fill_effective_columns_selector (t : Traces) (row : Nat) (value : List Byte)
    (col : Column)
    (hsz : col.size = value.length)
    (hoff : col.offset + value.length ≤ t.cols.length)
    (hrow : ∀ i, i < value.length → row < (t.cols.getD (col.offset + i) []).length) :
    (∃ t2 : Traces, t.fill_effective_columns row value col true = some t2 ∧
      ∀ i, i < value.length → getCell t2.cols (col.offset + i) row = 0) ∧
    t.fill_effective_columns row value col false = t.fill_columns row value col := by
  constructor
  · have key : t.fill_effective_columns row value col true =
        some ⟨fillLoop t.cols row value col.offset true, t.log_size⟩ := by
      rw [Traces.fill_effective_columns, if_pos hsz, if_pos ⟨hoff, hrow⟩]
    refine ⟨_, key, ?_⟩
    intro i hi
    simp only [cols_mk]
    rw [getCell_fillLoop_get value t.cols row col.offset true i hi (by omega)
      (hrow i hi)]
    rfl
  · rfl

theorem fill_effective_columns_selector_witness :
    (∃ t2 : Traces,
      Traces.fill_effective_columns ⟨[[0, 0], [0, 0]], 1⟩ 1 [5, 7] ⟨0, 2⟩ true = some t2 ∧
      ∀ i, i < [(5 : Byte), 7].length → getCell t2.cols (0 + i) 1 = 0) ∧
    Traces.fill_effective_columns ⟨[[0, 0], [0, 0]], 1⟩ 1 [5, 7] ⟨0, 2⟩ false =
      Traces.fill_columns ⟨[[0, 0], [0, 0]], 1⟩ 1 [5, 7] ⟨0, 2⟩ :=
  fill_effective_columns_selector ⟨[[0, 0], [0, 0]], 1⟩ 1 [5, 7] ⟨0, 2⟩
    (by decide) (by decide) (by decide)

/-- Claim C7: for every column and every byte length or type-level width
`N` differing from the column's declared width, `column`, `column_mut`,
`fill_columns` and `fill_effective_columns` all fail fatally (modelled by
`none`) rather than returning or writing anything. -/
theorem size_mismatch_fatal (t : Traces) (row N : Nat) (value : List Byte) (col : Column)
    (hN : N ≠ col.size) (hv : value.length ≠ col.size) :
    t.column N row col = none ∧
    t.column_mut N row col = none ∧
    t.fill_columns row value col = none ∧
    (∀ selector : Bool, t.fill_effective_columns row value col selector = none) := by
  refine ⟨?_, ?_, ?_, fun selector => ?_⟩
  · rw [Traces.column, if_neg (fun h => hN h.symm)]
  · rw [Traces.column_mut, if_neg (fun h => hN h.symm)]
  · rw [Traces.fill_columns, if_neg (fun h => hv h.symm)]
  · rw [Traces.fill_effective_columns, if_neg (fun h => hv h.symm)]

theorem size_mismatch_fatal_witness :
    Traces.column ⟨[[0, 0], [0, 0]], 1⟩ 1 0 ⟨0, 2⟩ = none ∧
    Traces.column_mut ⟨[[0, 0], [0, 0]], 1⟩ 1 0 ⟨0, 2⟩ = none ∧
    Traces.fill_columns ⟨[[0, 0], [0, 0]], 1⟩ 0 [5] ⟨0, 2⟩ = none ∧
    (∀ selector : Bool,
      Traces.fill_effective_columns ⟨[[0, 0], [0, 0]], 1⟩ 0 [5] ⟨0, 2⟩ selector = none) :=
  size_mismatch_fatal ⟨[[0, 0], [0, 0]], 1⟩ 0 1 [5] ⟨0, 2⟩ (by decide) (by decide)

/-- Claim C10: `fill_columns(row, v, col)` and `fill_effective_columns(row,
v, col, sel)` are frame-bounded: they change only the slots at the given
row within columns `col.offset .. col.offset + v.length`, leaving every
other cell, the number of columns, each column's length, and the stored
`log_size` unchanged; neither resizes the trace. -/
theorem fill_operations_frame_bounded (t : Traces) (row : Nat) (value : List Byte)
    (col : Column) (sel : Bool) (t1 t2 : Traces)
    (h1 : t.fill_columns row value col = some t1)
    (h2 : t.fill_effective_columns row value col sel = some t2) :
    (t1.log_size = t.log_size ∧ t1.cols.length = t.cols.length ∧
      (∀ j, (t1.cols.getD j []).length = (t.cols.getD j []).length) ∧
      (∀ j r, (r ≠ row ∨ j < col.offset ∨ col.offset + value.length ≤ j) →
        getCell t1.cols j r = getCell t.cols j r)) ∧
    (t2.log_size = t.log_size ∧ t2.cols.length = t.cols.length ∧
      (∀ j, (t2.cols.getD j []).length = (t.cols.getD j []).length) ∧
      (∀ j r, (r ≠ row ∨ j < col.offset ∨ col.offset + value.length ≤ j) →
        getCell t2.cols j r = getCell t.cols j r)) := by
  rw [Traces.fill_columns] at h1
  rw [Traces.fill_effective_columns] at h2
  by_cases hsz : col.size = value.length
  · rw [if_pos hsz] at h1 h2
    by_cases hg : col.offset + value.length ≤ t.cols.length ∧
        ∀ i, i < value.length → row < (t.cols.getD (col.offset + i) []).length
    · rw [if_pos hg] at h1 h2
      obtain rfl : t1 = ⟨fillLoop t.cols row value col.offset false, t.log_size⟩ :=
        (Option.some.inj h1).symm
      obtain rfl : t2 = ⟨fillLoop t.cols row value col.offset sel, t.log_size⟩ :=
        (Option.some.inj h2).symm
      simp only [cols_mk, log_size_mk]
      exact ⟨⟨True.intro, fillLoop_length value t.cols row col.offset false,
          fillLoop_col_length value t.cols row col.offset false,
          fun j r hside => getCell_fillLoop_frame value t.cols row col.offset false j r hside⟩,
        ⟨True.intro, fillLoop_length value t.cols row col.offset sel,
          fillLoop_col_length value t.cols row col.offset sel,
          fun j r hside => getCell_fillLoop_frame value t.cols row col.offset sel j r hside⟩⟩
    · rw [if_neg hg] at h1
      exact absurd h1 (by simp)
  · rw [if_neg hsz] at h1
    exact absurd h1 (by simp)

theorem fill_operations_frame_bounded_witness :
    ((⟨[[BaseField.ofNat 5, 0], [0, 0]], 1⟩ : Traces).log_size =
        (⟨[[0, 0], [0, 0]], 1⟩ : Traces).log_size ∧
      (⟨[[BaseField.ofNat 5, 0], [0, 0]], 1⟩ : Traces).cols.length =
        (⟨[[0, 0], [0, 0]], 1⟩ : Traces).cols.length ∧
      (∀ j, ((⟨[[BaseField.ofNat 5, 0], [0, 0]], 1⟩ : Traces).cols.getD j []).length =
        ((⟨[[0, 0], [0, 0]], 1⟩ : Traces).cols.getD j []).length) ∧
      (∀ j r, (r ≠ 0 ∨ j < 0 ∨ 0 + [(5 : Byte)].length ≤ j) →
        getCell (⟨[[BaseField.ofNat 5, 0], [0, 0]], 1⟩ : Traces).cols j r =
          getCell (⟨[[0, 0], [0, 0]], 1⟩ : Traces).cols j r)) ∧
    ((⟨[[0, 0], [0, 0]], 1⟩ : Traces).log_size =
        (⟨[[0, 0], [0, 0]], 1⟩ : Traces).log_size ∧
      (⟨[[0, 0], [0, 0]], 1⟩ : Traces).cols.length =
        (⟨[[0, 0], [0, 0]], 1⟩ : Traces).cols.length ∧
      (∀ j, ((⟨[[0, 0], [0, 0]], 1⟩ : Traces).cols.getD j []).length =
        ((⟨[[0, 0], [0, 0]], 1⟩ : Traces).cols.getD j []).length) ∧
      (∀ j r, (r ≠ 0 ∨ j < 0 ∨ 0 + [(5 : Byte)].length ≤ j) →
        getCell (⟨[[0, 0], [0, 0]], 1⟩ : Traces).cols j r =
          getCell (⟨[[0, 0], [0, 0]], 1⟩ : Traces).cols j r)) :=
  fill_operations_frame_bounded ⟨[[0, 0], [0, 0]], 1⟩ 0 [5] ⟨0, 1⟩ true
    ⟨[[BaseField.ofNat 5, 0], [0, 0]], 1⟩ ⟨[[0, 0], [0, 0]], 1⟩
    (by decide) (by decide)

/-- Claim C1: in `commit_traces` the steps occur in this strict order: the
preprocessed-trace evaluations are committed first, then the main-trace
evaluations, then the LookupElements challenge is drawn from the transcript
holding exactly those two commitments (so strictly after the main-trace
commitment is absorbed), then the interaction trace is computed by the
chip's `fill_interaction_trace` from that challenge, and then it is
committed; no step is skipped or reordered. -/
theorem commit_traces_ordered (LE : Type) (C : MachineChip LE) (drawFn : Channel → LE)
    (traces : Traces) (custom_preprocessed : Option Traces) (preprocessed : Traces)
    (hpre : (match custom_preprocessed with
             | some p => some p
             | none => Traces.new_preprocessed_trace PreprocessedColumn.COLUMNS_NUM
                 PreprocessedColumn.IsFirstOffset PreprocessedColumn.Range256Offset
                 traces.log_size) = some preprocessed) :
    commit_traces LE C drawFn traces custom_preprocessed =
      some { steps := [Step.commit preprocessed.circle_evaluation,
                       Step.commit traces.circle_evaluation,
                       Step.draw (drawFn (channelCommit (channelCommit []
                         preprocessed.circle_evaluation) traces.circle_evaluation)),
                       Step.commit (C.fill_interaction_trace traces preprocessed
                         (drawFn (channelCommit (channelCommit []
                           preprocessed.circle_evaluation) traces.circle_evaluation)))],
             lookup_elements := drawFn (channelCommit (channelCommit []
               preprocessed.circle_evaluation) traces.circle_evaluation),
             preprocessed_trace := preprocessed,
             interaction_trace := C.fill_interaction_trace traces preprocessed
               (drawFn (channelCommit (channelCommit []
                 preprocessed.circle_evaluation) traces.circle_evaluation)) } := by
  rw [commit_traces.eq_def, hpre]
  rfl

theorem commit_traces_ordered_witness :
    commit_traces Nat ⟨fun _ _ _ => [], fun _ _ => true⟩ (fun ch => ch.length)
      ⟨[], 0⟩ (some ⟨[], 0⟩) =
      some { steps := [Step.commit [], Step.commit [], Step.draw 2, Step.commit []],
             lookup_elements := 2,
             preprocessed_trace := ⟨[], 0⟩,
             interaction_trace := [] } :=
  commit_traces_ordered Nat ⟨fun _ _ _ => [], fun _ _ => true⟩ (fun ch => ch.length)
    ⟨[], 0⟩ (some ⟨[], 0⟩) ⟨[], 0⟩ rfl

/-- Claim C9: in the full check path (`assert_chip` via `commit_traces`),
the LookupElements vector drawn from the transcript is the one and only
vector passed both to the chip's `fill_interaction_trace` and to the
chip's `add_constraints`: the identical vector, unchanged between the two
uses. -/
theorem assert_chip_shared_lookup_elements (LE : Type) (C : MachineChip LE)
    (drawFn : Channel → LE) (traces : Traces) (custom_preprocessed : Option Traces)
    (ct : CommittedTraces LE)
    (hct : commit_traces LE C drawFn traces custom_preprocessed = some ct) :
    ct.lookup_elements =
      drawFn (channelCommit (channelCommit [] ct.preprocessed_trace.circle_evaluation)
        traces.circle_evaluation) ∧
    ct.interaction_trace =
      C.fill_interaction_trace traces ct.preprocessed_trace ct.lookup_elements ∧
    assert_chip LE C drawFn traces custom_preprocessed =
      some (C.add_constraints
        [ct.preprocessed_trace.circle_evaluation, traces.circle_evaluation,
         ct.interaction_trace]
        ct.lookup_elements) := by
  have hct0 := hct
  rw [commit_traces.eq_def] at hct
  rcases hp : (match custom_preprocessed with
      | some p => some p
      | none => Traces.new_preprocessed_trace PreprocessedColumn.COLUMNS_NUM
          PreprocessedColumn.IsFirstOffset PreprocessedColumn.Range256Offset
          traces.log_size) with _ | p
  · rw [hp] at hct
    exact absurd hct (by simp)
  · rw [hp] at hct
    obtain rfl := (Option.some.inj hct).symm
    refine ⟨rfl, rfl, ?_⟩
    rw [assert_chip, hct0]
    rfl

theorem assert_chip_shared_lookup_elements_witness :
    (2 : Nat) = 2 ∧ ([] : EvalTree) = [] ∧
    assert_chip Nat ⟨fun _ _ _ => [], fun _ _ => true⟩ (fun ch => ch.length)
      ⟨[], 0⟩ (some ⟨[], 0⟩) = some true :=
  assert_chip_shared_lookup_elements Nat ⟨fun _ _ _ => [], fun _ _ => true⟩
    (fun ch => ch.length) ⟨[], 0⟩ (some ⟨[], 0⟩)
    { steps := [Step.commit [], Step.commit [], Step.draw 2, Step.commit []],
      lookup_elements := 2, preprocessed_trace := ⟨[], 0⟩, interaction_trace := [] }
    rfl

/-- Claim C2 (amended): the test-only shortcut `assert_as_original_trace`
skips real commitment and checks the registered constraints against a
combined trace whose interaction trace is empty and whose preprocessed
trace is the generated preprocessed trace (`new_preprocessed_trace`) at
the same `log_size`. -/
theorem assert_as_original_trace_combination (t : Traces)
    (check : List EvalTree → Bool) (preprocessed : Traces)
    (hpre : Traces.new_preprocessed_trace PreprocessedColumn.COLUMNS_NUM
      PreprocessedColumn.IsFirstOffset PreprocessedColumn.Range256Offset
      t.log_size = some preprocessed) :
    t.assert_as_original_trace check =
      some (check [preprocessed.circle_evaluation, t.circle_evaluation, []]) := by
  rw [Traces.assert_as_original_trace, hpre]
  rfl

theorem assert_as_original_trace_combination_witness :
    Traces.assert_as_original_trace ⟨[], 8⟩ (fun tree => tree.length == 3) =
      some ((fun tree : List EvalTree => tree.length == 3)
        [Traces.circle_evaluation ⟨fillRangeCol
            (writeCell (List.replicate 2 (List.replicate (2 ^ 8) (0 : BaseField))) 0 0 1)
            1 256, 8⟩,
         Traces.circle_evaluation ⟨[], 8⟩, []]) :=
  assert_as_original_trace_combination ⟨[], 8⟩ (fun tree => tree.length == 3)
    ⟨fillRangeCol
      (writeCell (List.replicate 2 (List.replicate (2 ^ 8) (0 : BaseField))) 0 0 1)
      1 256, 8⟩
    rfl

set_option maxRecDepth 8000 in
/-- Claim C2 (counterexample): the claim states the combined trace's
preprocessed trace is empty; at `log_size` 8 the probe reading the
preprocessed component of the checked tree finds it non-empty (it is the
generated preprocessed trace), so `assert_as_original_trace` reports
`false` for the emptiness probe. -/
theorem assert_as_original_trace_preprocessed_not_empty :
    Traces.assert_as_original_trace ⟨[], 8⟩
      (fun tree => decide (tree.getD 0 [] = [])) = some false := by
  rw [Traces.assert_as_original_trace]
  rfl

theorem reverseBits_lt (k : Nat) : ∀ i, reverseBits k i < 2 ^ k := by
  induction k with
  | zero => intro i; simp [reverseBits]
  | succ k ih =>
      intro i
      have h1 := ih (i / 2)
      have h2 : i % 2 < 2 := Nat.mod_lt _ (by norm_num)
      have h3 : 2 ^ (k + 1) = 2 * 2 ^ k := by rw [Nat.pow_succ]; ring
      rw [reverseBits]
      have h4 : i % 2 * 2 ^ k ≤ 1 * 2 ^ k := Nat.mul_le_mul_right _ (by omega)
      omega

theorem reverseBits_inj (k : Nat) : ∀ i j, i < 2 ^ k → j < 2 ^ k →
    reverseBits k i = reverseBits k j → i = j := by
  induction k with
  | zero =>
      intro i j hi hj _
      simp at hi hj
      omega
  | succ k ih =>
      intro i j hi hj heq
      simp only [reverseBits] at heq
      have hx := reverseBits_lt k (i / 2)
      have hy := reverseBits_lt k (j / 2)
      have hpow : 2 ^ (k + 1) = 2 * 2 ^ k := by rw [Nat.pow_succ]; ring
      have hiv : i / 2 < 2 ^ k := by omega
      have hjv : j / 2 < 2 ^ k := by omega
      have hkey : i % 2 = j % 2 ∧ reverseBits k (i / 2) = reverseBits k (j / 2) := by
        rcases Nat.mod_two_eq_zero_or_one i with h1 | h1 <;>
          rcases Nat.mod_two_eq_zero_or_one j with h2 | h2 <;>
            rw [h1, h2] at heq <;> constructor <;> omega
      obtain ⟨hmod, hrb⟩ := hkey
      have hdiv := ih (i / 2) (j / 2) hiv hjv hrb
      omega

theorem cosetIdx_lt {n : Nat} (hn : n % 2 = 0) {j : Nat} (hj : j < n) :
    cosetIdx n j < n := by
  unfold cosetIdx
  split <;> omega

theorem cosetIdx_inj {n : Nat} (hn : n % 2 = 0) {i j : Nat} (hi : i < n) (hj : j < n)
    (h : cosetIdx n i = cosetIdx n j) : i = j := by
  unfold cosetIdx at h
  split at h <;> split at h <;> omega

theorem getD_map_range {α : Type} {n m : Nat} (g : Nat → α) (d : α) (h : m < n) :
    ((List.range n).map g).getD m d = g m := by
  rw [List.getD_eq_getElem?_getD, List.getElem?_map, List.getElem?_range h]
  rfl

theorem coset_order_eq_map (v : List BaseField) (hn : v.length % 2 = 0) :
    coset_order_to_circle_domain_order v =
      (List.range v.length).map (fun j => v.getD (cosetIdx v.length j) 0) := by
  unfold coset_order_to_circle_domain_order
  have hsplit : v.length = v.length / 2 + v.length / 2 := by omega
  rw [show (List.range v.length).map (fun j => v.getD (cosetIdx v.length j) 0)
      = (List.range (v.length / 2 + v.length / 2)).map
          (fun j => v.getD (cosetIdx v.length j) 0) from by rw [← hsplit]]
  rw [List.range_add, List.map_append, List.map_map]
  congr 1
  · apply List.map_congr_left
    intro j hj
    have hjlt : j < v.length / 2 := List.mem_range.mp hj
    unfold cosetIdx
    rw [if_pos hjlt]
  · apply List.map_congr_left
    intro i hi
    have hilt : i < v.length / 2 := List.mem_range.mp hi
    show v.getD (v.length - 1 - 2 * i) 0 = v.getD (cosetIdx v.length (v.length / 2 + i)) 0
    unfold cosetIdx
    rw [if_neg (by omega)]
    congr 1
    omega

theorem pow_two_mod_two (k : Nat) (hk : 1 ≤ k) : 2 ^ k % 2 = 0 := by
  obtain ⟨m, rfl⟩ : ∃ m, k = m + 1 := ⟨k - 1, by omega⟩
  rw [Nat.pow_succ]
  omega

theorem coset_order_length (v : List BaseField) :
    (coset_order_to_circle_domain_order v).length = v.length / 2 + v.length / 2 := by
  unfold coset_order_to_circle_domain_order
  simp

theorem domainTransform_eq_map (k : Nat) (hk : 1 ≤ k) (v : List BaseField)
    (hv : v.length = 2 ^ k) :
    domainTransform k v =
      (List.range (2 ^ k)).map (fun i => v.getD (domainPerm k i) 0) := by
  have hn : v.length % 2 = 0 := by rw [hv]; exact pow_two_mod_two k hk
  unfold domainTransform bit_reverse
  rw [coset_order_length v, coset_order_eq_map v hn]
  have hlen : v.length / 2 + v.length / 2 = 2 ^ k := by omega
  rw [hlen]
  apply List.map_congr_left
  intro i hi
  have hrb : reverseBits k i < v.length := by rw [hv]; exact reverseBits_lt k i
  rw [getD_map_range _ _ (by exact hrb)]
  unfold domainPerm
  rw [hv]

theorem domainPerm_lt (k : Nat) (hk : 1 ≤ k) (i : Nat) : domainPerm k i < 2 ^ k := by
  unfold domainPerm
  exact cosetIdx_lt (pow_two_mod_two k hk) (reverseBits_lt k i)

theorem domainPerm_inj (k : Nat) (hk : 1 ≤ k) (i j : Nat) (hi : i < 2 ^ k)
    (hj : j < 2 ^ k) (h : domainPerm k i = domainPerm k j) : i = j := by
  unfold domainPerm at h
  exact reverseBits_inj k i j hi hj
    (cosetIdx_inj (pow_two_mod_two k hk) (reverseBits_lt k i) (reverseBits_lt k j) h)

theorem domainPerm_map_range_perm (k : Nat) (hk : 1 ≤ k) :
    ((List.range (2 ^ k)).map (domainPerm k)).Perm (List.range (2 ^ k)) := by
  have hnodup : ((List.range (2 ^ k)).map (domainPerm k)).Nodup := by
    refine List.Nodup.map_on ?_ (List.nodup_range _)
    intro x hx y hy hxy
    exact domainPerm_inj k hk x y (List.mem_range.mp hx) (List.mem_range.mp hy) hxy
  have hsub : ((List.range (2 ^ k)).map (domainPerm k)) ⊆ List.range (2 ^ k) := by
    intro x hx
    obtain ⟨i, _, rfl⟩ := List.mem_map.mp hx
    exact List.mem_range.mpr (domainPerm_lt k hk i)
  exact (List.subperm_of_subset hnodup hsub).perm_of_length_le (by simp)

theorem map_range_getD_eq_self {α : Type} (v : List α) (d : α) :
    (List.range v.length).map (fun m => v.getD m d) = v := by
  apply List.ext_getElem (by simp)
  intro i h1 h2
  simp only [List.getElem_map, List.getElem_range]
  exact List.getD_eq_getElem v d h2

/-- Claim C8: the domain-reordering transform applied per column by
`get_base_column` and `circle_evaluation` (coset order to circle-domain
order followed by bit reversal) is a bijection on row indices: on every
column of `2^log_size` field elements it acts as the fixed index
permutation `domainPerm log_size` (independent of the field-element
contents, identical for every column of the same `log_size`, applied to
all columns by `circle_evaluation`), that index map is injective and onto
`[0, 2^log_size)`, and the output is a permutation of the input values. -/
theorem domain_reorder_is_permutation (k : Nat) (hk : 1 ≤ k) :
    (∀ v : List BaseField, v.length = 2 ^ k →
      domainTransform k v = (List.range (2 ^ k)).map (fun i => v.getD (domainPerm k i) 0)) ∧
    (∀ i, domainPerm k i < 2 ^ k) ∧
    (∀ i j, i < 2 ^ k → j < 2 ^ k → domainPerm k i = domainPerm k j → i = j) ∧
    (∀ v : List BaseField, v.length = 2 ^ k → (domainTransform k v).Perm v) ∧
    (∀ t : Traces, t.log_size = k →
      t.circle_evaluation = t.cols.map (domainTransform k)) := by
  refine ⟨domainTransform_eq_map k hk, domainPerm_lt k hk, domainPerm_inj k hk, ?_, ?_⟩
  · intro v hv
    rw [domainTransform_eq_map k hk v hv]
    have h1 : (List.range (2 ^ k)).map (fun i => v.getD (domainPerm k i) 0)
        = ((List.range (2 ^ k)).map (domainPerm k)).map (fun m => v.getD m 0) := by
      rw [List.map_map]
      rfl
    rw [h1]
    have h3 := (domainPerm_map_range_perm k hk).map (fun m => v.getD m 0)
    rw [show (List.range (2 ^ k)).map (fun m => v.getD m 0) = v from by
      rw [← hv]; exact map_range_getD_eq_self v 0] at h3
    exact h3
  · intro t ht
    rw [Traces.circle_evaluation, ht]

theorem domain_reorder_is_permutation_witness :
    (∀ v : List BaseField, v.length = 2 ^ 4 →
      domainTransform 4 v = (List.range (2 ^ 4)).map (fun i => v.getD (domainPerm 4 i) 0)) ∧
    (∀ i, domainPerm 4 i < 2 ^ 4) ∧
    (∀ i j, i < 2 ^ 4 → j < 2 ^ 4 → domainPerm 4 i = domainPerm 4 j → i = j) ∧
    (∀ v : List BaseField, v.length = 2 ^ 4 → (domainTransform 4 v).Perm v) ∧
    (∀ t : Traces, t.log_size = 4 →
      t.circle_evaluation = t.cols.map (domainTransform 4)) :=
  domain_reorder_is_permutation 4 (by decide)
